import Mathlib

/-!
Verification of the bitrounding-c core against its specification.

The C sources are shallowly embedded: 32-bit machine words become `ℕ`
with explicit `% 2^32` where overflow matters, `float` buffers become
`List ℕ` of their IEEE-754 bit images, and `double` arithmetic becomes
exact arithmetic (`ℚ` where the code is algebraic, `ℝ` where it is
transcendental).
-/

set_option maxRecDepth 4096

namespace BitRounding

/-! ## Bit-Round Applier (src/netcdf_bit_rounding.c, `bitround`, lines 54-75)

The C code, for `nsb` keep-bits:
  bit_xpl_nbr_zro = 23 - nsb
  msk_f32_u32_zro = (~0u) << bit_xpl_nbr_zro
  msk_f32_u32_one = ~msk_f32_u32_zro
  msk_f32_u32_hshv = msk_f32_u32_one & (msk_f32_u32_zro >> 1)
  per word: u32 += hshv; u32 &= msk_zro   (uint32 wrap-around arithmetic)
-/

/-- `(~0u) << (23 - nsb)` as a 32-bit word: shift of all-ones, truncated mod 2^32. -/
def msk_f32_u32_zro (nsb : ℕ) : ℕ := ((2 ^ 32 - 1) <<< (23 - nsb)) % 2 ^ 32

/-- `~msk_f32_u32_zro` : bitwise complement within 32 bits. -/
def msk_f32_u32_one (nsb : ℕ) : ℕ := 2 ^ 32 - 1 - msk_f32_u32_zro nsb

/-- `msk_f32_u32_one & (msk_f32_u32_zro >> 1)` : the rounding half-shift. -/
def msk_f32_u32_hshv (nsb : ℕ) : ℕ := msk_f32_u32_one nsb &&& (msk_f32_u32_zro nsb >>> 1)

/-- One word of the applier loop body: `(word + hshv) & msk_zro` in uint32 arithmetic. -/
def applyRound (w : ℕ) (nsb : ℕ) : ℕ :=
  ((w + msk_f32_u32_hshv nsb) % 2 ^ 32) &&& msk_f32_u32_zro nsb

/-! IEEE-754 single-precision field observers on the 32-bit image. -/

/-- Sign bit (bit 31) of a 32-bit float image. -/
def signField (w : ℕ) : ℕ := (w / 2 ^ 31) % 2

/-- Biased exponent field (bits 30..23) of a 32-bit float image. -/
def expField (w : ℕ) : ℕ := (w / 2 ^ 23) % 2 ^ 8

/-- Fraction (mantissa) field (bits 22..0) of a 32-bit float image. -/
def fracField (w : ℕ) : ℕ := w % 2 ^ 23

/-- `isnan` on the bit image: exponent all ones and nonzero fraction. -/
def isnanf32 (w : ℕ) : Bool := expField w == 255 && fracField w != 0

/-- IEEE-754 `==` on bit images: false if either side is NaN, true on identical
bits, and true for `+0.0 == -0.0` (the two zero images differ only in bit 31). -/
def feq32 (a b : ℕ) : Bool :=
  !isnanf32 a && !isnanf32 b && (a == b || (a % 2 ^ 31 == 0 && b % 2 ^ 31 == 0))

/-- The `bitround` loop (src/netcdf_bit_rounding.c lines 69-74): a word is rewritten
only when `v[idx] != missval && !isnan(v[idx])`; `!=` on floats is the negation
of IEEE equality, so a NaN word always passes the first test and is stopped by
the second. -/
def bitround (nsb : ℕ) (v : List ℕ) (missval : ℕ) : List ℕ :=
  v.map (fun w => if !feq32 w missval && !isnanf32 w then applyRound w nsb else w)

/-! ## Arithmetic characterization of the applier

`R z x` is round-half-up of `x` to a multiple of `2^z` (no 32-bit wrap):
the half-shift `2^z / 2` is `2^(z-1)` for `z ≥ 1` and `0` for `z = 0`. -/

/-- Round `x` half-up to a multiple of `2 ^ z` (unbounded naturals). -/
def roundHU (z x : ℕ) : ℕ := 2 ^ z * ((x + 2 ^ z / 2) / 2 ^ z)

theorem msk_zro_eq (nsb : ℕ) (h1 : 1 ≤ nsb) (h2 : nsb ≤ 23) :
    msk_f32_u32_zro nsb = 2 ^ 32 - 2 ^ (23 - nsb) := by
  interval_cases nsb <;> decide

theorem msk_hshv_eq (nsb : ℕ) (h1 : 1 ≤ nsb) (h2 : nsb ≤ 23) :
    msk_f32_u32_hshv nsb = 2 ^ (23 - nsb) / 2 := by
  interval_cases nsb <;> decide

/-- Masking with the high mask clears the low `z` bits: for `a < 2^32`,
`a &&& (2^32 - 2^z) = 2^z * (a / 2^z)`. -/
theorem land_highmask (a z : ℕ) (ha : a < 2 ^ 32) (hz : z ≤ 32) :
    a &&& (2 ^ 32 - 2 ^ z) = 2 ^ z * (a / 2 ^ z) := by
  have hpow : (2 : ℕ) ^ z * 2 ^ (32 - z) = 2 ^ 32 := by
    rw [← pow_add]
    congr 1
    omega
  have hmask : (2 : ℕ) ^ 32 - 2 ^ z = 2 ^ z * (2 ^ (32 - z) - 1) := by
    rw [Nat.mul_sub, mul_one, hpow]
  have hdivlt : a / 2 ^ z < 2 ^ (32 - z) := by
    rw [Nat.div_lt_iff_lt_mul (show 0 < (2 : ℕ) ^ z by positivity)]
    calc a < 2 ^ 32 := ha
    _ ≤ 2 ^ (32 - z) * 2 ^ z := by rw [mul_comm, hpow]
  apply Nat.eq_of_testBit_eq
  intro i
  rw [Nat.testBit_and, hmask, Nat.testBit_mul_pow_two, Nat.testBit_mul_pow_two]
  rcases lt_or_le i z with hiz | hiz
  · simp [show ¬ i ≥ z by omega]
  · rcases lt_or_le i 32 with hi32 | hi32
    · simp [show i ≥ z from hiz, Nat.testBit_two_pow_sub_one,
        show i - z < 32 - z by omega, ← Nat.shiftRight_eq_div_pow, Nat.testBit_shiftRight,
        show z + (i - z) = i by omega]
    · have h1 : a.testBit i = false :=
        Nat.testBit_lt_two_pow (lt_of_lt_of_le ha (Nat.pow_le_pow_right (by norm_num) hi32))
      have h2 : (a / 2 ^ z).testBit (i - z) = false :=
        Nat.testBit_lt_two_pow
          (lt_of_lt_of_le hdivlt (Nat.pow_le_pow_right (by norm_num) (by omega)))
      simp [h1, h2]

/-- Adding the half-shift and masking, in uint32 arithmetic, is round-half-up
to a multiple of `2^z` followed by a wrap mod `2^32`. -/
theorem land_div_mod (S z : ℕ) (hz : z ≤ 32) :
    (S % 2 ^ 32) &&& (2 ^ 32 - 2 ^ z) = 2 ^ z * (S / 2 ^ z) % 2 ^ 32 := by
  have hpow : (2 : ℕ) ^ z * 2 ^ (32 - z) = 2 ^ 32 := by
    rw [← pow_add]
    congr 1
    omega
  rw [land_highmask _ z (Nat.mod_lt _ (by positivity)) hz]
  rw [← hpow, Nat.mod_mul_right_div_self, Nat.mul_mod_mul_left]

/-- The applier is round-half-up to a multiple of `2^(23-nsb)`, wrapped mod `2^32`. -/
theorem applyRound_eq_roundHU (w nsb : ℕ) (h1 : 1 ≤ nsb) (h2 : nsb ≤ 23) :
    applyRound w nsb = roundHU (23 - nsb) w % 2 ^ 32 := by
  simp only [applyRound, roundHU]
  rw [msk_hshv_eq nsb h1 h2, msk_zro_eq nsb h1 h2]
  exact land_div_mod (w + 2 ^ (23 - nsb) / 2) (23 - nsb) (by omega)

theorem roundHU_le (z x : ℕ) : roundHU z x ≤ x + 2 ^ z / 2 :=
  Nat.mul_div_le _ _

theorem roundHU_dvd (z x : ℕ) : 2 ^ z ∣ roundHU z x :=
  Dvd.intro _ rfl

/-- Rounding a value that is already a multiple of `2^z` is the identity. -/
theorem roundHU_of_dvd (z r : ℕ) (h : 2 ^ z ∣ r) : roundHU z r = r := by
  obtain ⟨k, rfl⟩ := h
  simp only [roundHU]
  rw [add_comm, Nat.add_mul_div_left _ _ (show 0 < (2 : ℕ) ^ z by positivity),
    Nat.div_eq_of_lt (Nat.div_lt_self (by positivity) one_lt_two), zero_add]

/-- Shifting by a multiple of `2^c` (with `z ≤ c`) commutes with rounding. -/
theorem roundHU_add_pow_mul (z c x b : ℕ) (hzc : z ≤ c) :
    roundHU z (x + 2 ^ c * b) = roundHU z x + 2 ^ c * b := by
  have hc : (2 : ℕ) ^ c = 2 ^ z * 2 ^ (c - z) := by
    rw [← pow_add]
    congr 1
    omega
  simp only [roundHU]
  rw [hc, mul_assoc, add_right_comm,
    Nat.add_mul_div_left _ _ (show 0 < (2 : ℕ) ^ z by positivity),
    mul_add]

/-- Rounding then wrapping mod `2^c` only depends on the value mod `2^c`. -/
theorem roundHU_mod_pow (z c x : ℕ) (hzc : z ≤ c) :
    roundHU z (x % 2 ^ c) % 2 ^ c = roundHU z x % 2 ^ c := by
  conv_rhs => rw [show x = x % 2 ^ c + 2 ^ c * (x / 2 ^ c) from (Nat.mod_add_div x _).symm]
  rw [roundHU_add_pow_mul z c _ _ hzc, Nat.add_mul_mod_self_left]

theorem applyRound_lt (w nsb : ℕ) : applyRound w nsb < 2 ^ 32 :=
  lt_of_le_of_lt Nat.and_le_left (Nat.mod_lt _ (by positivity))

theorem applyRound_dvd (w nsb : ℕ) (h1 : 1 ≤ nsb) (h2 : nsb ≤ 23) :
    2 ^ (23 - nsb) ∣ applyRound w nsb := by
  rw [applyRound_eq_roundHU w nsb h1 h2]
  exact (Nat.dvd_mod_iff (pow_dvd_pow 2 (by omega))).mpr (roundHU_dvd _ _)

/-- Double rounding: rounding half-up at `z1` and then at `z2 ≥ z1` agrees with
rounding directly at `z2`, provided the low `z2` bits of the input do not lie in
the band where the first rounding manufactures a tie at the second level. -/
theorem roundHU_double (z1 z2 x : ℕ) (h12 : z1 ≤ z2) (hz2 : 1 ≤ z2)
    (hcond : x % 2 ^ z2 + 2 ^ z1 / 2 < 2 ^ z2 / 2 ∨ 2 ^ z2 / 2 ≤ x % 2 ^ z2) :
    roundHU z2 (roundHU z1 x) = roundHU z2 x := by
  have hx : x = x % 2 ^ z2 + 2 ^ z2 * (x / 2 ^ z2) := (Nat.mod_add_div x _).symm
  rw [hx, roundHU_add_pow_mul z1 z2 _ _ h12, roundHU_add_pow_mul z2 z2 _ _ le_rfl,
    roundHU_add_pow_mul z2 z2 _ _ le_rfl]
  congr 1
  have ht : x % 2 ^ z2 < 2 ^ z2 := Nat.mod_lt _ (by positivity)
  generalize htdef : x % 2 ^ z2 = t at ht hcond
  have h2pos : 0 < (2 : ℕ) ^ z2 := by positivity
  have h1pos : 0 < (2 : ℕ) ^ z1 := by positivity
  have hhalf : 2 ^ z2 / 2 * 2 = 2 ^ z2 :=
    Nat.div_mul_cancel (dvd_pow_self 2 (by omega))
  rcases hcond with hlow | hhigh
  · -- both roundings round down to 0
    have hr1 : roundHU z1 t ≤ t + 2 ^ z1 / 2 := roundHU_le _ _
    have hA0 : t + 2 ^ z2 / 2 < 2 ^ z2 := by omega
    have hB0 : roundHU z1 t + 2 ^ z2 / 2 < 2 ^ z2 := by omega
    have hA : roundHU z2 t = 0 := by
      simp only [roundHU]
      rw [Nat.div_eq_of_lt hA0, mul_zero]
    have hB : roundHU z2 (roundHU z1 t) = 0 := by
      calc roundHU z2 (roundHU z1 t)
          = 2 ^ z2 * ((roundHU z1 t + 2 ^ z2 / 2) / 2 ^ z2) := rfl
      _ = 0 := by rw [Nat.div_eq_of_lt hB0, mul_zero]
    rw [hA, hB]
  · -- both roundings round up to 2^z2
    have hr1lo : roundHU z1 t ≤ t + 2 ^ z1 / 2 := roundHU_le _ _
    have hz1half : 2 ^ z1 / 2 ≤ 2 ^ z2 / 2 :=
      Nat.div_le_div_right (Nat.pow_le_pow_right (by norm_num) h12)
    have h1le2 : (2 : ℕ) ^ z1 ≤ 2 ^ z2 := Nat.pow_le_pow_right (by norm_num) h12
    have hr1hi : 2 ^ z2 / 2 ≤ roundHU z1 t := by
      rcases Nat.lt_or_ge z1 z2 with hz12 | hz12
      · -- z1 < z2 : the half point 2^z2/2 is a multiple of 2^z1
        obtain ⟨k, hk⟩ := Nat.exists_eq_add_of_le (show z1 + 1 ≤ z2 from hz12)
        have h2z2 : (2 : ℕ) ^ z2 = 2 ^ z1 * 2 ^ k * 2 := by
          subst hk
          ring
        have hhalf1 : (2 : ℕ) ^ z2 / 2 = 2 ^ z1 * 2 ^ k := by
          rw [h2z2, Nat.mul_div_cancel _ (by norm_num)]
        have hdvd1 : (2 : ℕ) ^ z1 ∣ 2 ^ z2 / 2 := ⟨2 ^ k, hhalf1⟩
        by_contra hcon
        push_neg at hcon
        obtain ⟨a, ha⟩ := roundHU_dvd z1 t
        obtain ⟨b, hb⟩ := hdvd1
        have hab : a < b :=
          lt_of_mul_lt_mul_left (show 2 ^ z1 * a < 2 ^ z1 * b by rw [← ha, ← hb]; exact hcon)
            (Nat.zero_le _)
        have hle2 : roundHU z1 t + 2 ^ z1 ≤ 2 ^ z2 / 2 := by
          rw [ha, hb]
          calc 2 ^ z1 * a + 2 ^ z1 = 2 ^ z1 * (a + 1) := by ring
          _ ≤ 2 ^ z1 * b := Nat.mul_le_mul_left _ hab
        have hdm := Nat.div_add_mod (t + 2 ^ z1 / 2) (2 ^ z1)
        have hmlt : (t + 2 ^ z1 / 2) % 2 ^ z1 < 2 ^ z1 := Nat.mod_lt _ h1pos
        have hge : t + 2 ^ z1 / 2 < roundHU z1 t + 2 ^ z1 := by
          simp only [roundHU]
          omega
        omega
      · -- z1 = z2
        have hz12e : z2 = z1 := by omega
        subst hz12e
        have h1le : 2 ^ z2 ≤ t + 2 ^ z2 / 2 := by omega
        have hge1 : 1 ≤ (t + 2 ^ z2 / 2) / 2 ^ z2 := (Nat.one_le_div_iff h2pos).mpr h1le
        simp only [roundHU]
        calc 2 ^ z2 / 2 ≤ 2 ^ z2 := Nat.div_le_self _ _
        _ = 2 ^ z2 * 1 := (mul_one _).symm
        _ ≤ 2 ^ z2 * ((t + 2 ^ z2 / 2) / 2 ^ z2) := Nat.mul_le_mul_left _ hge1
    have hA : roundHU z2 t = 2 ^ z2 := by
      have d1 : 1 ≤ (t + 2 ^ z2 / 2) / 2 ^ z2 := (Nat.one_le_div_iff h2pos).mpr (by omega)
      have d2 : (t + 2 ^ z2 / 2) / 2 ^ z2 < 2 := by
        rw [Nat.div_lt_iff_lt_mul h2pos]
        omega
      have d3 : (t + 2 ^ z2 / 2) / 2 ^ z2 = 1 := by omega
      simp only [roundHU]
      rw [d3, mul_one]
    have hB : roundHU z2 (roundHU z1 t) = 2 ^ z2 := by
      have d1 : 1 ≤ (roundHU z1 t + 2 ^ z2 / 2) / 2 ^ z2 :=
        (Nat.one_le_div_iff h2pos).mpr (by omega)
      have d2 : (roundHU z1 t + 2 ^ z2 / 2) / 2 ^ z2 < 2 := by
        rw [Nat.div_lt_iff_lt_mul h2pos]
        omega
      have d3 : (roundHU z1 t + 2 ^ z2 / 2) / 2 ^ z2 = 1 := by omega
      calc roundHU z2 (roundHU z1 t)
          = 2 ^ z2 * ((roundHU z1 t + 2 ^ z2 / 2) / 2 ^ z2) := rfl
      _ = 2 ^ z2 := by rw [d3, mul_one]
    rw [hA, hB]

/-- Idempotence of the applier word operation (shared helper). -/
theorem applyRound_idem (w nsb : ℕ) (h1 : 1 ≤ nsb) (h2 : nsb ≤ 23) :
    applyRound (applyRound w nsb) nsb = applyRound w nsb := by
  have hdvd := applyRound_dvd w nsb h1 h2
  rw [applyRound_eq_roundHU (applyRound w nsb) nsb h1 h2, roundHU_of_dvd _ _ hdvd,
    Nat.mod_eq_of_lt (applyRound_lt w nsb)]

/-- Chained rounding at `nsb1` then `nsb2 ≤ nsb1` equals direct rounding at `nsb2`,
for equal keep-bits or whenever the low bits avoid the tie-manufacturing band
(shared helper). -/
theorem applyRound_chain (w nsb1 nsb2 : ℕ) (hw : w < 2 ^ 32)
    (h11 : 1 ≤ nsb1) (h12 : nsb1 ≤ 23) (h21 : 1 ≤ nsb2) (h2le : nsb2 ≤ nsb1)
    (hcond : nsb1 = nsb2 ∨
      w % 2 ^ (23 - nsb2) + 2 ^ (23 - nsb1) / 2 < 2 ^ (23 - nsb2) / 2 ∨
      2 ^ (23 - nsb2) / 2 ≤ w % 2 ^ (23 - nsb2)) :
    applyRound (applyRound w nsb1) nsb2 = applyRound w nsb2 := by
  rcases Nat.eq_or_lt_of_le h2le with heq | hlt
  · subst heq
    exact applyRound_idem w nsb2 h11 h12
  · have hcond2 : w % 2 ^ (23 - nsb2) + 2 ^ (23 - nsb1) / 2 < 2 ^ (23 - nsb2) / 2 ∨
        2 ^ (23 - nsb2) / 2 ≤ w % 2 ^ (23 - nsb2) := by
      rcases hcond with heq | h
      · omega
      · exact h
    have hz1 : (1 : ℕ) ≤ 23 - nsb2 := by omega
    have h12z : 23 - nsb1 ≤ 23 - nsb2 := by omega
    rw [applyRound_eq_roundHU w nsb1 h11 h12,
      applyRound_eq_roundHU _ nsb2 h21 (by omega),
      applyRound_eq_roundHU w nsb2 h21 (by omega),
      roundHU_mod_pow _ 32 _ (by omega),
      roundHU_double (23 - nsb1) (23 - nsb2) w h12z hz1 hcond2]

/-- Sign always survives the applier on finite floats, and the exponent field
survives when the mantissa addition does not carry (shared helper). -/
theorem applyRound_fields (w nsb : ℕ) (hw : w < 2 ^ 32) (h1 : 1 ≤ nsb) (h2 : nsb ≤ 23)
    (hfin : expField w ≠ 255) :
    signField (applyRound w nsb) = signField w ∧
      (fracField w + msk_f32_u32_hshv nsb < 2 ^ 23 →
        expField (applyRound w nsb) = expField w) := by
  have hz : 23 - nsb ≤ 23 := by omega
  simp only [expField] at hfin
  have hhalf : 2 ^ (23 - nsb) / 2 ≤ 2 ^ 21 := by
    calc 2 ^ (23 - nsb) / 2 ≤ 2 ^ 22 / 2 :=
      Nat.div_le_div_right (Nat.pow_le_pow_right (by norm_num) (by omega))
    _ = 2 ^ 21 := by norm_num
  have hwdec : w = w % 2 ^ 23 + 2 ^ 23 * (w / 2 ^ 23) := (Nat.mod_add_div w _).symm
  have hr := applyRound_eq_roundHU w nsb h1 h2
  have hRsplit : roundHU (23 - nsb) w =
      roundHU (23 - nsb) (w % 2 ^ 23) + 2 ^ 23 * (w / 2 ^ 23) := by
    conv_lhs => rw [hwdec]
    exact roundHU_add_pow_mul _ 23 _ _ hz
  have hrm_le : roundHU (23 - nsb) (w % 2 ^ 23) ≤ w % 2 ^ 23 + 2 ^ (23 - nsb) / 2 :=
    roundHU_le _ _
  have hmlt : w % 2 ^ 23 < 2 ^ 23 := Nat.mod_lt _ (by positivity)
  have hRlt : roundHU (23 - nsb) w < 2 ^ 32 := by omega
  have happ : applyRound w nsb = roundHU (23 - nsb) (w % 2 ^ 23) + 2 ^ 23 * (w / 2 ^ 23) := by
    rw [hr, Nat.mod_eq_of_lt hRlt, hRsplit]
  constructor
  · simp only [signField, happ]
    omega
  · intro hc
    simp only [fracField, msk_hshv_eq nsb h1 h2] at hc
    have hrm_lt : roundHU (23 - nsb) (w % 2 ^ 23) < 2 ^ 23 := by omega
    simp only [expField, happ]
    omega

/-- C1 (corrected claim): for every finite float32 image `w` (exponent field not
all-ones) and every `nsb ∈ [1,23]`, the applier leaves the sign bit unchanged,
and it leaves the 8-bit exponent field unchanged provided the fraction plus the
half-shift does not carry into the exponent (`fracField w + hshv < 2^23`). -/
theorem C1_sign_exponent_amended (w nsb : ℕ) (hw : w < 2 ^ 32)
    (h1 : 1 ≤ nsb) (h2 : nsb ≤ 23) (hfin : expField w ≠ 255) :
    signField (applyRound w nsb) = signField w ∧
      (fracField w + msk_f32_u32_hshv nsb < 2 ^ 23 →
        expField (applyRound w nsb) = expField w) :=
  applyRound_fields w nsb hw h1 h2 hfin

/-- C1 (counterexample to the claim as stated): the finite float `0x3FFFFFFF`
(≈ 1.9999999) rounded with `nsb = 1` becomes `0x40000000` (= 2.0), whose
exponent field is 128, not the original 127: the half-shift addition carries
out of the mantissa, so the exponent field is NOT always preserved. -/
theorem C1_counterexample :
    (0x3FFFFFFF : ℕ) < 2 ^ 32 ∧ expField 0x3FFFFFFF ≠ 255 ∧
      (1 : ℕ) ≤ 1 ∧ (1 : ℕ) ≤ 23 ∧
      expField (applyRound 0x3FFFFFFF 1) ≠ expField 0x3FFFFFFF := by decide

/-- C1 (witness): the amended theorem applied at `w = 0x3F9E0652`, `nsb = 10`. -/
theorem C1_witness :
    ((0x3F9E0652 : ℕ) < 2 ^ 32 ∧ expField 0x3F9E0652 ≠ 255) ∧
      (signField (applyRound 0x3F9E0652 10) = signField 0x3F9E0652 ∧
        (fracField 0x3F9E0652 + msk_f32_u32_hshv 10 < 2 ^ 23 →
          expField (applyRound 0x3F9E0652 10) = expField 0x3F9E0652)) :=
  ⟨⟨by decide, by decide⟩,
    C1_sign_exponent_amended 0x3F9E0652 10 (by decide) (by decide) (by decide) (by decide)⟩

/-- C2: for every float32 word image `w` and every `nsb ∈ [1,23]`, applying the
Bit-Round Applier twice with the same `nsb` equals applying it once. -/
theorem C2_applyRound_idempotent (w nsb : ℕ) (h1 : 1 ≤ nsb) (h2 : nsb ≤ 23) :
    applyRound (applyRound w nsb) nsb = applyRound w nsb :=
  applyRound_idem w nsb h1 h2

/-- C2 (witness): idempotence instantiated at `w = 0x3F9E0652`, `nsb = 10`. -/
theorem C2_witness :
    ((1 : ℕ) ≤ 10 ∧ (10 : ℕ) ≤ 23) ∧
      applyRound (applyRound 0x3F9E0652 10) 10 = applyRound 0x3F9E0652 10 :=
  ⟨⟨by decide, by decide⟩, C2_applyRound_idempotent 0x3F9E0652 10 (by decide) (by decide)⟩

/-- C3 (corrected claim): rounding with `nsb1` and then with `nsb2 ≤ nsb1`
equals rounding with `nsb2` alone when `nsb1 = nsb2`, or whenever the low
`23 - nsb2` bits of the word avoid the half-open band
`[2^(23-nsb2)/2 - 2^(23-nsb1)/2, 2^(23-nsb2)/2)` in which the first rounding
manufactures a tie that the second rounding then resolves upward. -/
theorem C3_monotone_amended (w nsb1 nsb2 : ℕ) (hw : w < 2 ^ 32)
    (h11 : 1 ≤ nsb1) (h12 : nsb1 ≤ 23) (h21 : 1 ≤ nsb2) (h2le : nsb2 ≤ nsb1)
    (hcond : nsb1 = nsb2 ∨
      w % 2 ^ (23 - nsb2) + 2 ^ (23 - nsb1) / 2 < 2 ^ (23 - nsb2) / 2 ∨
      2 ^ (23 - nsb2) / 2 ≤ w % 2 ^ (23 - nsb2)) :
    applyRound (applyRound w nsb1) nsb2 = applyRound w nsb2 :=
  applyRound_chain w nsb1 nsb2 hw h11 h12 h21 h2le hcond

/-- C3 (counterexample to the claim as stated): for the denormal word `w = 1`,
`nsb1 = 22`, `nsb2 = 21`, chaining gives 4 while direct rounding gives 0: the
first rounding turns 1 into 2, an exact tie at the second level, which then
rounds up - double rounding is not monotone in general. -/
theorem C3_counterexample :
    (1 : ℕ) < 2 ^ 32 ∧ (1 : ℕ) ≤ 22 ∧ (22 : ℕ) ≤ 23 ∧ (1 : ℕ) ≤ 21 ∧ (21 : ℕ) ≤ 22 ∧
      applyRound (applyRound 1 22) 21 ≠ applyRound 1 21 := by decide

/-- C3 (witness): the amended theorem applied at `w = 0x3F9E0652`, `nsb1 = 12`,
`nsb2 = 10` (the low 13 bits, 0x652, lie below the tie band). -/
theorem C3_witness :
    ((0x3F9E0652 : ℕ) < 2 ^ 32 ∧
      (0x3F9E0652 : ℕ) % 2 ^ (23 - 10) + 2 ^ (23 - 12) / 2 < 2 ^ (23 - 10) / 2) ∧
      applyRound (applyRound 0x3F9E0652 12) 10 = applyRound 0x3F9E0652 10 :=
  ⟨⟨by decide, by decide⟩,
    C3_monotone_amended 0x3F9E0652 12 10 (by decide) (by decide) (by decide) (by decide)
      (by decide) (Or.inr (Or.inl (by decide)))⟩

/-- C6: for every `nsb ∈ [1,23]` the rounding mask has exactly the low
`23 - nsb` bits clear and all bits up to 31 set, the half-shift is
`(~mask) & (mask >> 1)`, the applier computes `(word + hshv) & mask` in uint32
arithmetic, and at `nsb = 10` the pair is `(0xFFFFE000, 0x00001000)` and the
word `0x3F9E0652` maps to `0x3F9E0000`. -/
theorem C6_mask_halfshift (nsb : ℕ) (h1 : 1 ≤ nsb) (h2 : nsb ≤ 23) :
    (∀ i, i < 23 - nsb → Nat.testBit (msk_f32_u32_zro nsb) i = false) ∧
      (∀ i, i < 32 → 23 - nsb ≤ i → Nat.testBit (msk_f32_u32_zro nsb) i = true) ∧
      msk_f32_u32_hshv nsb = (2 ^ 32 - 1 - msk_f32_u32_zro nsb) &&& (msk_f32_u32_zro nsb >>> 1) ∧
      (∀ w, applyRound w nsb = ((w + msk_f32_u32_hshv nsb) % 2 ^ 32) &&& msk_f32_u32_zro nsb) ∧
      msk_f32_u32_zro 10 = 0xFFFFE000 ∧ msk_f32_u32_hshv 10 = 0x00001000 ∧
      applyRound 0x3F9E0652 10 = 0x3F9E0000 := by
  refine ⟨?_, ?_, rfl, fun w => rfl, by decide, by decide, by decide⟩
  · interval_cases nsb <;> decide
  · interval_cases nsb <;> decide

/-- C6 (witness): the mask/half-shift theorem applied at `nsb = 10`. -/
theorem C6_witness :
    ((1 : ℕ) ≤ 10 ∧ (10 : ℕ) ≤ 23) ∧
      ((∀ i, i < 23 - 10 → Nat.testBit (msk_f32_u32_zro 10) i = false) ∧
        (∀ i, i < 32 → 23 - 10 ≤ i → Nat.testBit (msk_f32_u32_zro 10) i = true) ∧
        msk_f32_u32_hshv 10 = (2 ^ 32 - 1 - msk_f32_u32_zro 10) &&& (msk_f32_u32_zro 10 >>> 1) ∧
        (∀ w, applyRound w 10 = ((w + msk_f32_u32_hshv 10) % 2 ^ 32) &&& msk_f32_u32_zro 10) ∧
        msk_f32_u32_zro 10 = 0xFFFFE000 ∧ msk_f32_u32_hshv 10 = 0x00001000 ∧
        applyRound 0x3F9E0652 10 = 0x3F9E0000) :=
  ⟨⟨by decide, by decide⟩, C6_mask_halfshift 10 (by decide) (by decide)⟩

/-- C8: in the applier loop, each buffer element that is NaN or float-equal to
the missing value is left bit-for-bit unchanged, and exactly the non-NaN,
non-missing elements are replaced by the rounded word. -/
theorem C8_missing_skipped (nsb : ℕ) (v : List ℕ) (missval : ℕ) :
    bitround nsb v missval =
      v.map (fun w => if isnanf32 w || feq32 w missval then w else applyRound w nsb) := by
  simp only [bitround]
  congr 1
  funext w
  cases h1 : isnanf32 w <;> cases h2 : feq32 w missval <;> simp [h1, h2]

/-! ## Signed-exponent remap (src/bitrounding_bitinfo.c, lines 73-102)

The C kernel, on the uint32 image `ui`:
  sf  = ui & (float_sign_mask | float_significand_mask)   -- 0x807fffff
  e   = (int32)((ui & 0x7f800000) >> 23) - 127
  esign = (e < 0) ? (float_sign_mask >> 1) : 0            -- 0x40000000
  return sf | esign | (abs(e) << 23)
-/

/-- `signed_exponent_kernel` : remap the biased exponent to sign-magnitude form. -/
def signed_exponent_kernel (Auint : ℕ) : ℕ :=
  let sf := Auint &&& 0x807fffff
  let e : ℤ := (((Auint &&& 0x7f800000) >>> 23 : ℕ) : ℤ) - 127
  let eabs : ℕ := e.natAbs
  let esign : ℕ := if e < 0 then 0x40000000 else 0
  let esigned := esign ||| (eabs <<< 23)
  sf ||| esigned

/-- `signed_exponent` : apply the kernel to every word of the buffer. -/
def signed_exponent (A : List ℕ) : List ℕ := A.map signed_exponent_kernel

/-- Extracting a bit field by mask-and-shift equals the div-mod field value. -/
theorem land_fieldmask (a m k : ℕ) :
    a &&& (2 ^ m * (2 ^ k - 1)) = 2 ^ m * (a / 2 ^ m % 2 ^ k) := by
  apply Nat.eq_of_testBit_eq
  intro i
  rw [Nat.testBit_and, Nat.testBit_mul_pow_two, Nat.testBit_mul_pow_two,
    Nat.testBit_two_pow_sub_one, Nat.testBit_mod_two_pow,
    ← Nat.shiftRight_eq_div_pow, Nat.testBit_shiftRight]
  rcases lt_or_le i m with him | him
  · simp [show ¬ i ≥ m by omega]
  · simp [show i ≥ m from him, show m + (i - m) = i from by omega,
      Bool.and_comm, Bool.and_left_comm]

/-- C7: for every 32-bit word, the signed-exponent remap returns
`s | f | esign | (natAbs e << 23)` where `s` is the sign bit, `f` the fraction
bits, `e` the unbiased exponent of the 8-bit field at bits 30..23, and
`esign = 0x40000000` exactly when `e < 0`; in particular `0x3F800000` (1.0f)
maps to `0x00000000` and `0x3F000000` (0.5f) maps to `0x40800000`. -/
theorem C7_signed_exponent (ui : ℕ) :
    (signed_exponent_kernel ui =
      ((ui &&& 0x80000000) ||| (ui &&& 0x007fffff)) |||
        (if ((ui / 2 ^ 23 % 2 ^ 8 : ℕ) : ℤ) - 127 < 0 then 0x40000000 else 0) |||
        ((((ui / 2 ^ 23 % 2 ^ 8 : ℕ) : ℤ) - 127).natAbs <<< 23)) ∧
      signed_exponent_kernel 0x3F800000 = 0 ∧
      signed_exponent_kernel 0x3F000000 = 0x40800000 := by
  refine ⟨?_, by decide, by decide⟩
  simp only [signed_exponent_kernel]
  rw [show (0x7f800000 : ℕ) = 2 ^ 23 * (2 ^ 8 - 1) by decide,
    land_fieldmask ui 23 8, Nat.shiftRight_eq_div_pow,
    Nat.mul_div_cancel_left _ (show 0 < (2 : ℕ) ^ 23 by positivity),
    show (0x807fffff : ℕ) = 0x80000000 ||| 0x007fffff by decide,
    Nat.and_or_distrib_left]
  exact (Nat.or_assoc _ _ _).symm

/-! ## Keep-bits selector (src/bitrounding_bitinfo.c, `get_keepbits`, lines 108-154)

The C code (doubles; embedded here over an arbitrary linear ordered field):
  bitInfoMaxLast4 = -1e33; for i in 28..31 take max with M[i]; then *= 1.5
  cleaned[i] = (M[i] > bitInfoMaxLast4) ? M[i] : 0
  in-place prefix sum; lastBit = cleaned-cumsum[31]
  if lastBit > 0: cdf[i] = cumsum[i]/lastBit; first i with cdf[i] > inflevel
    gives keepMantissaBits = i + 1 - 9, default 23
  clamp to [1,23]
(The unused local `bitInfoMax` over all 32 entries is dead code and not modelled.) -/

/-- `1.5 * max(M[28..31])`, folded with the C seed value `-1e33`. -/
def keepbits_tail_max {α : Type} [LinearOrderedField α] (M : Fin 32 → α) : α :=
  3 / 2 * (max (max (max (max (-(10 ^ 33)) (M 28)) (M 29)) (M 30)) (M 31))

/-- The tail-filtered ("cleaned") information vector. -/
def keepbits_cleaned {α : Type} [LinearOrderedField α] (M : Fin 32 → α) : Fin 32 → α :=
  fun i => if M i > keepbits_tail_max M then M i else 0

/-- In-place prefix sum of the cleaned vector, as the C loop computes it
(`for i in 1..31: a[i] += a[i-1]`). -/
def keepbits_cumsumN {α : Type} [LinearOrderedField α] (M : Fin 32 → α) : ℕ → α
  | 0 => keepbits_cleaned M 0
  | k + 1 => keepbits_cumsumN M k + (if h : k + 1 < 32 then keepbits_cleaned M ⟨k + 1, h⟩ else 0)

/-- Cumulative sum of the cleaned vector at index `i`. -/
def keepbits_cumsum {α : Type} [LinearOrderedField α] (M : Fin 32 → α) (i : Fin 32) : α :=
  keepbits_cumsumN M i.val

/-- First index whose cdf value strictly exceeds `inflevel` (the C `break` loop). -/
def keepbits_first_exceed {α : Type} [LinearOrderedField α] (cdf : Fin 32 → α)
    (inflevel : α) : Option (Fin 32) :=
  (List.finRange 32).find? (fun i => decide (cdf i > inflevel))

/-- `get_keepbits` : the tail-filtered-CDF keep-bits selector. -/
def get_keepbits {α : Type} [LinearOrderedField α] (M : Fin 32 → α) (inflevel : α) : ℤ :=
  let lastBit := keepbits_cumsum M 31
  let keepMantissaBits : ℤ :=
    if 0 < lastBit then
      match keepbits_first_exceed (fun i => keepbits_cumsum M i / lastBit) inflevel with
      | some i => (i.val : ℤ) + 1 - 9
      | none => 23
    else 23
  min (max keepMantissaBits 1) 23

/-- A `find?` returns the first element satisfying the predicate. -/
theorem find?_eq_get {β : Type} (p : β → Bool) (l : List β) :
    ∀ (i : ℕ) (hi : i < l.length),
      p (l.get ⟨i, hi⟩) = true →
      (∀ j (hj : j < l.length), j < i → p (l.get ⟨j, hj⟩) = false) →
      l.find? p = some (l.get ⟨i, hi⟩) := by
  induction l with
  | nil => intro i hi hp hmin; simp at hi
  | cons x xs ih =>
    intro i hi hp hmin
    match i with
    | 0 => exact List.find?_cons_of_pos _ hp
    | k + 1 =>
      have hx : p x = false := hmin 0 (by simp) (by omega)
      rw [List.find?_cons_of_neg _ (by simp [hx])]
      exact ih k (by simpa using hi) (by simpa using hp)
        (fun j hj hji => by
          have h := hmin (j + 1) (by simpa using Nat.succ_lt_succ hj) (by omega)
          simpa using h)

/-- `find?` over `finRange 32` returns the least satisfying index. -/
theorem finRange32_find?_eq (p : Fin 32 → Bool) (istar : Fin 32)
    (hp : p istar = true) (hmin : ∀ j : Fin 32, j < istar → p j = false) :
    (List.finRange 32).find? p = some istar := by
  have hi : (istar : ℕ) < (List.finRange 32).length := by
    rw [List.length_finRange]
    exact istar.isLt
  have hget : (List.finRange 32).get ⟨istar, hi⟩ = istar := by
    rw [List.get_finRange]
  have h := find?_eq_get p (List.finRange 32) istar hi
    (by rw [hget]; exact hp)
    (fun j hj hji => by
      rw [List.get_finRange]
      exact hmin ⟨j, by rw [List.length_finRange] at hj; exact hj⟩
        (by simpa [Fin.lt_def] using hji))
  rw [h, hget]

/-- The in-place prefix-sum loop computes the cumulative sums of the cleaned
vector. -/
theorem keepbits_cumsumN_eq_sum {α : Type} [LinearOrderedField α] (M : Fin 32 → α) :
    ∀ n, n < 32 → keepbits_cumsumN M n =
      ∑ k ∈ Finset.univ.filter (fun k : Fin 32 => k.val ≤ n), keepbits_cleaned M k := by
  intro n
  induction n with
  | zero =>
    intro h
    rw [show (Finset.univ.filter (fun k : Fin 32 => k.val ≤ 0)) = {(0 : Fin 32)} by
      ext j
      simp only [Finset.mem_filter, Finset.mem_univ, true_and, Finset.mem_singleton,
        Fin.ext_iff]
      omega]
    rw [Finset.sum_singleton]
    simp only [keepbits_cumsumN]
  | succ k ih =>
    intro h
    have hins : Finset.univ.filter (fun j : Fin 32 => j.val ≤ k + 1) =
        insert (⟨k + 1, h⟩ : Fin 32) (Finset.univ.filter (fun j : Fin 32 => j.val ≤ k)) := by
      ext j
      simp only [Finset.mem_filter, Finset.mem_univ, true_and, Finset.mem_insert, Fin.ext_iff]
      omega
    rw [hins, Finset.sum_insert (by
      simp only [Finset.mem_filter, Finset.mem_univ, true_and]
      omega)]
    simp only [keepbits_cumsumN]
    rw [dif_pos h, ih (by omega)]
    ring

/-- `keepbits_cumsum M i` equals the sum of the cleaned entries up to `i`. -/
theorem keepbits_cumsum_eq_sum {α : Type} [LinearOrderedField α] (M : Fin 32 → α)
    (i : Fin 32) :
    keepbits_cumsum M i =
      ∑ k ∈ Finset.univ.filter (fun k : Fin 32 => k ≤ i), keepbits_cleaned M k := by
  rw [keepbits_cumsum, keepbits_cumsumN_eq_sum M i.val i.isLt]
  congr 1

/-- C4: for every nonnegative 32-entry vector `M` and inflevel, the selector
zeroes exactly the entries not strictly above `1.5 * max(M[28..31])`, its
in-place loop forms the cumulative sums of the cleaned vector, it returns 23
when the total is zero, and otherwise returns `i* + 1 - 9` clamped to `[1,23]`
where `i*` is the least index whose normalised cumulative value strictly
exceeds `inflevel`. -/
theorem C4_keepbits_selector {α : Type} [LinearOrderedField α] (M : Fin 32 → α)
    (inflevel : α) (hM : ∀ i, 0 ≤ M i) :
    (∀ i, (M i ≤ 3 / 2 * max (max (max (M 28) (M 29)) (M 30)) (M 31) →
        keepbits_cleaned M i = 0) ∧
      (3 / 2 * max (max (max (M 28) (M 29)) (M 30)) (M 31) < M i →
        keepbits_cleaned M i = M i)) ∧
    (∀ i, keepbits_cumsum M i =
      ∑ k ∈ Finset.univ.filter (fun k : Fin 32 => k ≤ i), keepbits_cleaned M k) ∧
    (keepbits_cumsum M 31 = 0 → get_keepbits M inflevel = 23) ∧
    (∀ istar : Fin 32, keepbits_cumsum M 31 ≠ 0 →
      inflevel < keepbits_cumsum M istar / keepbits_cumsum M 31 →
      (∀ j : Fin 32, j < istar →
        ¬ inflevel < keepbits_cumsum M j / keepbits_cumsum M 31) →
      get_keepbits M inflevel = min (max ((istar.val : ℤ) + 1 - 9) 1) 23) := by
  have hseed : max (-(10 ^ 33 : α)) (M 28) = M 28 :=
    max_eq_right (le_trans (neg_nonpos.mpr (by positivity)) (hM 28))
  have hmax : keepbits_tail_max M = 3 / 2 * max (max (max (M 28) (M 29)) (M 30)) (M 31) := by
    simp only [keepbits_tail_max, hseed]
  have hclean : ∀ k, 0 ≤ keepbits_cleaned M k := fun k => by
    simp only [keepbits_cleaned]
    split_ifs
    · exact hM k
    · exact le_refl 0
  refine ⟨fun i => ⟨fun h => ?_, fun h => ?_⟩, keepbits_cumsum_eq_sum M,
    fun h0 => ?_, fun istar hne hstar hmin => ?_⟩
  · simp only [keepbits_cleaned, hmax]
    rw [if_neg (not_lt.mpr h)]
  · simp only [keepbits_cleaned, hmax]
    rw [if_pos h]
  · simp only [get_keepbits, h0, lt_self_iff_false, if_false]
    norm_num
  · have hpos : 0 < keepbits_cumsum M 31 := by
      refine lt_of_le_of_ne ?_ (Ne.symm hne)
      rw [keepbits_cumsum_eq_sum]
      exact Finset.sum_nonneg fun k _ => hclean k
    have hfind : keepbits_first_exceed
        (fun i => keepbits_cumsum M i / keepbits_cumsum M 31) inflevel = some istar := by
      apply finRange32_find?_eq
      · exact decide_eq_true hstar
      · intro j hj
        exact decide_eq_false (hmin j hj)
    simp only [get_keepbits, if_pos hpos, hfind]

/-- Concrete information vector from the specification's scenario 4. -/
def keepbitsExample : Fin 32 → ℚ := fun i =>
  if i.val = 9 then 1 / 2 else if i.val = 10 then 3 / 10 else if i.val = 11 then 1 / 10
  else if i.val = 12 then 1 / 20 else if i.val = 13 then 3 / 100
  else if i.val = 14 then 1 / 50 else 0

theorem kbE_tail_max : keepbits_tail_max keepbitsExample = 0 := by
  have h28 : keepbitsExample 28 = 0 := rfl
  have h29 : keepbitsExample 29 = 0 := rfl
  have h30 : keepbitsExample 30 = 0 := rfl
  have h31 : keepbitsExample 31 = 0 := rfl
  rw [keepbits_tail_max, h28, h29, h30, h31,
    max_eq_right (show -(10 ^ 33 : ℚ) ≤ 0 by norm_num), max_self, max_self, max_self,
    mul_zero]

theorem kbE_nonneg : ∀ i, 0 ≤ keepbitsExample i := by
  intro i
  fin_cases i <;> norm_num [keepbitsExample]

theorem kbE_cleaned : keepbits_cleaned keepbitsExample = keepbitsExample := by
  funext i
  rw [keepbits_cleaned, kbE_tail_max]
  split_ifs with h
  · rfl
  · exact (le_antisymm (not_lt.mp h) (kbE_nonneg i)).symm

theorem kbE_total : keepbits_cumsum keepbitsExample 31 = 1 := by
  norm_num [keepbits_cumsum, keepbits_cumsumN, kbE_cleaned, keepbitsExample]

theorem kbE_c14 : keepbits_cumsum keepbitsExample 14 = 1 := by
  norm_num [keepbits_cumsum, keepbits_cumsumN, kbE_cleaned, keepbitsExample]

theorem kbE_hmin : ∀ j : Fin 32, j < 14 →
    ¬ (99 : ℚ) / 100 <
      keepbits_cumsum keepbitsExample j / keepbits_cumsum keepbitsExample 31 := by
  intro j hj
  rw [kbE_total, div_one]
  fin_cases j
  all_goals first
    | exact absurd hj (by decide)
    | norm_num [keepbits_cumsum, keepbits_cumsumN, kbE_cleaned, keepbitsExample]

/-- C4 (witness): the selector theorem applied at the specification's
scenario-4 vector with `inflevel = 0.99`, where the least exceeding index is 14
(cdf 0.98 at 13, 1.0 at 14) and the clamped result is `14 + 1 - 9 = 6`. -/
theorem C4_witness :
    ((∀ i, 0 ≤ keepbitsExample i) ∧ keepbits_cumsum keepbitsExample 31 ≠ 0 ∧
      (99 : ℚ) / 100 <
        keepbits_cumsum keepbitsExample 14 / keepbits_cumsum keepbitsExample 31 ∧
      (∀ j : Fin 32, j < 14 →
        ¬ (99 : ℚ) / 100 <
          keepbits_cumsum keepbitsExample j / keepbits_cumsum keepbitsExample 31)) ∧
      get_keepbits keepbitsExample ((99 : ℚ) / 100) =
        min (max (((14 : Fin 32).val : ℤ) + 1 - 9) 1) 23 :=
  ⟨⟨kbE_nonneg, by rw [kbE_total]; norm_num, by rw [kbE_total, kbE_c14]; norm_num, kbE_hmin⟩,
    (C4_keepbits_selector keepbitsExample ((99 : ℚ) / 100) kbE_nonneg).2.2.2 14
      (by rw [kbE_total]; norm_num) (by rw [kbE_total, kbE_c14]; norm_num) kbE_hmin⟩

/-! ## Information Estimator (src/bitrounding_bitinfo.c, lines 8-71, 322-338)

The estimator's counting is exact integer arithmetic; its mutual-information
and free-entropy computations use `log`, `sqrt` and the Acklam inverse-normal
rational approximation, embedded here over `ℝ` (the C `double`s are modelled
as exact reals). -/

/-- Bit `i` (counting from the LSB) of a word: `(w & (1 << i)) >> i`. -/
def bitAt (w i : ℕ) : ℕ := (w &&& (1 <<< i)) >>> i

/-- Contingency counts of `bitpair_count` applied to `(A, A+1, n-1)`: row `b`
of the C table `C[NBITS-i-1][j][k]` holds, for physical bit `i = 31 - b`, the
number of adjacent pairs whose bit is `j` in the first word and `k` in the
second; the `A`/`A+1` aliasing is the zip of the buffer with its tail. -/
def bitpairCount (ws : List ℕ) (b j k : ℕ) : ℕ :=
  ((ws.zip ws.tail).filter
    (fun p => bitAt p.1 (31 - b) == j && bitAt p.2 (31 - b) == k)).length

/-- `normal_inv_Acklam` : the Acklam rational approximation of the inverse
normal CDF. The C code returns `-INFINITY` / `INFINITY` for `p ≤ 0` / `p ≥ 1`;
`ℝ` has no infinities, so those two (unused: every call site passes
`p = 0.995`) branches are modelled as 0. -/
noncomputable def normal_inv_Acklam (p : ℝ) : ℝ :=
  if p ≤ 0 then 0
  else if 1 ≤ p then 0
  else
    let p_low : ℝ := 0.02425
    let p_high : ℝ := 1 - p_low
    if p < p_low then
      let q := Real.sqrt (-2 * Real.log p)
      (((((-0.007784894002430293 * q + -0.3223964580411365) * q + -2.400758277161838) * q +
        -2.549732539343734) * q + 4.374664141464968) * q + 2.938163982698783) /
      ((((0.007784695709041462 * q + 0.3224671290700398) * q + 2.445134137142996) * q +
        3.754408661907416) * q + 1)
    else if p > p_high then
      let q := Real.sqrt (-2 * Real.log (1 - p))
      (-(((((-0.007784894002430293 * q + -0.3223964580411365) * q + -2.400758277161838) * q +
        -2.549732539343734) * q + 4.374664141464968) * q + 2.938163982698783)) /
      ((((0.007784695709041462 * q + 0.3224671290700398) * q + 2.445134137142996) * q +
        3.754408661907416) * q + 1)
    else
      let q := p - 0.5
      let r := q * q
      (((((-39.69683028665376 * r + 220.9460984245205) * r + -275.9285104469687) * r +
        138.3577518672690) * r + -30.66479806614716) * r + 2.506628277459239) * q /
      (((((-54.47609879822406 * r + 161.5858368580409) * r + -155.6989798598866) * r +
        66.80131188771972) * r + -13.28068155288572) * r + 1)

/-- `normal_inv` dispatches to the Acklam approximation. -/
noncomputable def normal_inv (p : ℝ) : ℝ := normal_inv_Acklam p

/-- `binom_confidence(n, c) = min(1, 0.5 + Φ⁻¹(1 - (1-c)/2) / (2√n))`. -/
noncomputable def binom_confidence (n : ℕ) (c : ℝ) : ℝ :=
  let v := 1 - (1 - c) * 0.5
  let p := 0.5 + normal_inv v / (2 * Real.sqrt n)
  if p > 1 then 1 else p

/-- `entropy2` : natural-log binary entropy scaled to bits, with `0 log 0 = 0`. -/
noncomputable def entropy2 (p1 p2 : ℝ) : ℝ :=
  (0 - (if p1 > 0 then p1 * Real.log p1 else 0) -
    (if p2 > 0 then p2 * Real.log p2 else 0)) / Real.log 2

/-- `binom_free_entropy(n, c) = 1 - entropy2(p, 1-p)` at the binomial bound. -/
noncomputable def binom_free_entropy (n : ℕ) (c : ℝ) : ℝ :=
  1 - entropy2 (binom_confidence n c) (1 - binom_confidence n c)

/-- `mutual_information_kernel` : the 2x2-table mutual information in bits; the
C loop accumulates `j` outer, `i` inner, and divides by `log 2` at the end. -/
noncomputable def mutual_information_kernel (p : Fin 2 → Fin 2 → ℝ) : ℝ :=
  let py : Fin 2 → ℝ := fun j => p 0 j + p 1 j
  let px : Fin 2 → ℝ := fun i => p i 0 + p i 1
  let M :=
    (if p 0 0 > 0 then p 0 0 * Real.log (p 0 0 / px 0 / py 0) else 0) +
    (if p 1 0 > 0 then p 1 0 * Real.log (p 1 0 / px 1 / py 0) else 0) +
    (if p 0 1 > 0 then p 0 1 * Real.log (p 0 1 / px 0 / py 1) else 0) +
    (if p 1 1 > 0 then p 1 1 * Real.log (p 1 1 / px 1 / py 1) else 0)
  M / Real.log 2

/-- `mutual_information` : per-bit MI of the adjacent-pair table with
`P[j][k] = C[b][j][k] / nelements`, floored by `set_zero_insignificant`
(entries `≤ binom_free_entropy(nelements, 0.99)` are zeroed). -/
noncomputable def mutual_information (ws : List ℕ) (nelements : ℕ) : Fin 32 → ℝ :=
  fun b =>
    let H := mutual_information_kernel
      (fun j k => (bitpairCount ws b.val j.val k.val : ℝ) / (nelements : ℝ))
    if H ≤ binom_free_entropy nelements 0.99 then 0 else H

/-- `bitinformation(A, n) = mutual_information(A, A+1, n-1)`. -/
noncomputable def bitinformation (ws : List ℕ) : Fin 32 → ℝ :=
  mutual_information ws (ws.length - 1)

/-! Specification-side formulation of the estimator (claim C5), written as the
spec states it: `I_b = (1/ln 2) Σ_(cells with p>0) p ln(p/(px py))` over the
adjacent-pair contingency table with `p[i][j] = C[b][i][j]/(n-1)`, floored at
`H_free = 1 - H₂(q, 1-q)` with `q = min(1, 0.5 + Φ⁻¹(1-(1-0.99)/2)/(2√(n-1)))`. -/

/-- Spec-side cell probability `p[i][j] = C[b][i][j] / (n-1)`. -/
noncomputable def specP (ws : List ℕ) (b : Fin 32) (i j : Fin 2) : ℝ :=
  (bitpairCount ws b.val i.val j.val : ℝ) / ((ws.length - 1 : ℕ) : ℝ)

/-- Spec-side row marginal `px[i] = Σ_j p[i][j]`. -/
noncomputable def specPx (ws : List ℕ) (b : Fin 32) (i : Fin 2) : ℝ :=
  ∑ j : Fin 2, specP ws b i j

/-- Spec-side column marginal `py[j] = Σ_i p[i][j]`. -/
noncomputable def specPy (ws : List ℕ) (b : Fin 32) (j : Fin 2) : ℝ :=
  ∑ i : Fin 2, specP ws b i j

/-- Spec-side mutual information at bit `b`. -/
noncomputable def specMI (ws : List ℕ) (b : Fin 32) : ℝ :=
  (1 / Real.log 2) * ∑ i : Fin 2, ∑ j : Fin 2,
    (if specP ws b i j > 0 then
      specP ws b i j * Real.log (specP ws b i j / (specPx ws b i * specPy ws b j))
    else 0)

/-- Spec-side binomial confidence bound `q` for a buffer of `n` words. -/
noncomputable def specQ (n : ℕ) : ℝ :=
  min 1 (0.5 + normal_inv (1 - (1 - 0.99) / 2) / (2 * Real.sqrt ((n - 1 : ℕ) : ℝ)))

/-- Spec-side base-2 binary entropy with the `0 log 0 = 0` convention. -/
noncomputable def specH2 (p q : ℝ) : ℝ :=
  -(if p > 0 then p * Real.log p / Real.log 2 else 0) -
    (if q > 0 then q * Real.log q / Real.log 2 else 0)

/-- Spec-side free-entropy floor for a buffer of `n` words. -/
noncomputable def specHfree (n : ℕ) : ℝ := 1 - specH2 (specQ n) (1 - specQ n)

/-- Spec-side estimator: the mutual-information vector with sub-floor entries
zeroed. -/
noncomputable def specEstimator (ws : List ℕ) (b : Fin 32) : ℝ :=
  if specMI ws b ≤ specHfree ws.length then 0 else specMI ws b

theorem ite_gt_one_eq_min (p : ℝ) : (if p > 1 then 1 else p) = min 1 p := by
  split_ifs with h
  · exact (min_eq_left (le_of_lt h)).symm
  · exact (min_eq_right (not_lt.mp h)).symm

/-- The C binomial bound equals the spec's `q`. -/
theorem binom_confidence_eq_specQ (n : ℕ) :
    binom_confidence (n - 1) 0.99 = specQ n := by
  rw [binom_confidence, specQ, ite_gt_one_eq_min]
  norm_num

/-- The C `entropy2` equals the spec's base-2 binary entropy. -/
theorem entropy2_eq_specH2 (p q : ℝ) : entropy2 p q = specH2 p q := by
  rw [entropy2, specH2]
  by_cases h1 : p > 0 <;> by_cases h2 : q > 0 <;> simp only [h1, h2, if_true, if_false,
    if_pos, if_neg, not_false_iff] <;> ring

/-- The C free-entropy floor at `n-1` trials equals the spec's `H_free`. -/
theorem binom_free_entropy_eq_specHfree (n : ℕ) :
    binom_free_entropy (n - 1) 0.99 = specHfree n := by
  rw [binom_free_entropy, entropy2_eq_specH2, binom_confidence_eq_specQ, specHfree]

/-- The C mutual-information kernel on the normalised table equals the spec's
`I_b` formula. -/
theorem mutual_information_kernel_eq_specMI (ws : List ℕ) (b : Fin 32) :
    mutual_information_kernel
      (fun j k => (bitpairCount ws b.val j.val k.val : ℝ) / ((ws.length - 1 : ℕ) : ℝ)) =
      specMI ws b := by
  simp only [mutual_information_kernel, specMI, specPx, specPy, specP, Fin.sum_univ_two]
  simp only [div_div]
  ring

/-- C5: for every buffer of at least two words, the Information Estimator
returns, at every bit position `b`, the mutual information
`I_b = (1/ln 2) Σ_(cells with p>0) p ln(p/(px py))` of the adjacent-pair 2x2
contingency table with `p[i][j] = C[b][i][j]/(n-1)`, with every entry
`≤ H_free = 1 - H₂(q,1-q)` set to 0, where
`q = min(1, 0.5 + Φ⁻¹(1-(1-0.99)/2)/(2√(n-1)))` and `Φ⁻¹` is the Acklam
approximation. -/
theorem C5_information_estimator (ws : List ℕ) (hn : 2 ≤ ws.length) :
    ∀ b, bitinformation ws b = specEstimator ws b := by
  intro b
  simp only [bitinformation, mutual_information]
  rw [mutual_information_kernel_eq_specMI ws b, binom_free_entropy_eq_specHfree ws.length]
  rfl

/-- C5 (witness): the estimator/spec agreement applied to the two-word buffer
`[1.0f, 0.5f]` at the LSB position. -/
theorem C5_witness :
    2 ≤ ([0x3F800000, 0x3F000000] : List ℕ).length ∧
      bitinformation [0x3F800000, 0x3F000000] 31 =
        specEstimator [0x3F800000, 0x3F000000] 31 :=
  ⟨by decide, C5_information_estimator [0x3F800000, 0x3F000000] (by decide) 31⟩

/-! ## Raw-chunk concatenation (src/hdf_concat.c, `copy_raw_chunks` lines
569-658 and the driver loop in `main`, section 5.5)

Abstracted along the record (unlimited) dimension: chunk payloads, filter
masks and non-record coordinates are invariant under the copy and are elided;
a write is either a raw-chunk write at a record coordinate or a decoded
hyperslab write at a record offset with a record extent. -/

/-- One output write of the concatenator. -/
inductive WriteAct where
  | raw : ℕ → WriteAct
  | hyperslab : ℕ → ℕ → WriteAct
deriving DecidableEq

/-- `copy_raw_chunks(in_ds, out_ds, rec_offset, rec_dim)` : for each chunk of
the input dataset, if the dataset extent along the record dimension
(`in_dims[rec_dim]`) is smaller than the chunk extent (`chunk_dims[rec_dim]`),
decode-read the whole dataset and hyperslab-write it at `rec_offset`;
otherwise raw-write the chunk at its coordinate plus `rec_offset` (no
alignment adjustment is made). -/
def copy_raw_chunks (coords : List ℕ) (chunk_rec dset_rec rec_offset : ℕ) : List WriteAct :=
  coords.map fun c =>
    if dset_rec < chunk_rec then WriteAct.hyperslab rec_offset dset_rec
    else WriteAct.raw (c + rec_offset)

/-- The per-record-variable driver loop: input files in argv order, each file's
chunks copied at the running offset, which then advances by that file's extent
along the record dimension. -/
def concat_rec_writes (chunk_rec : ℕ) : List (List ℕ × ℕ) → ℕ → List WriteAct
  | [], _ => []
  | (coords, ext) :: files, offset =>
      copy_raw_chunks coords chunk_rec ext offset ++
        concat_rec_writes chunk_rec files (offset + ext)

/-- C9 (corrected claim): the concatenator writes each file's chunks at the
running offset and then advances the offset by the file's record extent; a
chunk whose dataset's record extent is at least the chunk extent is raw-written
at its input coordinate plus the offset - a multiple of the chunk extent only
when both the coordinate and the offset are - and when the dataset's record
extent is smaller than the chunk extent, every chunk of that dataset instead
produces a decoded whole-dataset hyperslab write at the offset. -/
theorem C9_concat_amended (chunk_rec : ℕ) (coords : List ℕ) (ext offset : ℕ)
    (rest : List (List ℕ × ℕ)) :
    (concat_rec_writes chunk_rec ((coords, ext) :: rest) offset =
      copy_raw_chunks coords chunk_rec ext offset ++
        concat_rec_writes chunk_rec rest (offset + ext)) ∧
    (∀ c ∈ coords, chunk_rec ≤ ext →
      WriteAct.raw (c + offset) ∈ copy_raw_chunks coords chunk_rec ext offset ∧
        (chunk_rec ∣ c → chunk_rec ∣ offset → chunk_rec ∣ (c + offset))) ∧
    (ext < chunk_rec →
      copy_raw_chunks coords chunk_rec ext offset =
        coords.map (fun _ => WriteAct.hyperslab offset ext)) := by
  refine ⟨rfl, fun c hc hle => ⟨?_, fun h1 h2 => Nat.dvd_add h1 h2⟩, fun hlt => ?_⟩
  · simp only [copy_raw_chunks, List.mem_map]
    exact ⟨c, hc, by rw [if_neg (not_lt.mpr hle)]⟩
  · simp only [copy_raw_chunks]
    exact List.map_congr_left fun c hc => by rw [if_pos hlt]

/-- C9 (counterexample to the claim as stated): with chunk extent 4, file F1 of
record extent 10 (chunks at 0, 4, 8) and file F2 of record extent 7 (chunks at
0, 4), F2's chunk 0 is raw-written at coordinate 10, which is NOT a multiple of
the chunk extent 4 (the alignment rule is violated), and F1's residual short
trailing chunk at 8 (extent 10 - 8 = 2 < 4) is raw-written rather than written
via the decoded hyperslab fallback (the fallback triggers only when the whole
dataset extent is below the chunk extent). -/
theorem C9_counterexample :
    concat_rec_writes 4 [([0, 4, 8], 10), ([0, 4], 7)] 0 =
      [WriteAct.raw 0, WriteAct.raw 4, WriteAct.raw 8,
        WriteAct.raw 10, WriteAct.raw 14] ∧
      ¬ (4 ∣ 10) ∧ 10 - 8 < 4 :=
  ⟨rfl, by decide, by decide⟩

/-- C9 (witness): the amended theorem applied to F2 of the counterexample
scenario (extent 7 ≥ chunk 4, offset 10): its chunk 0 is raw-written at 0+10. -/
theorem C9_witness :
    WriteAct.raw (0 + 10) ∈ copy_raw_chunks [0, 4] 4 7 10 ∧
      (4 ∣ 0 → 4 ∣ 10 → (4 : ℕ) ∣ (0 + 10)) :=
  (C9_concat_amended 4 [0, 4] 7 10 []).2.1 0 (by decide) (by decide)

/-! ## Per-variable bit-rounding pipeline (src/netcdf_bit_rounding.c,
`analyze_and_get_nsb` lines 33-52 and the 1-D/2-D branch of `main`,
lines 420-429) -/

/-- Predecessor within `Fin 32` (clamped at 0). -/
def finPred (k : Fin 32) : Fin 32 := ⟨k.val - 1, Nat.lt_of_le_of_lt (Nat.sub_le _ _) k.isLt⟩

/-- Modelled from the spec: the Monotonic-rule filter of `get_keepbits_monotonic`,
whose definition is missing from the sources (only its declaration and call in
src/netcdf_bit_rounding.c exist). Spec §4.3: "Walk M from MSB to LSB;
once the running value starts decreasing, set all later entries to zero". -/
def monotonic_filter {α : Type} [LinearOrderedField α] (M : Fin 32 → α) : Fin 32 → α :=
  fun i =>
    if ∀ k : Fin 32, k.val ≤ i.val → 1 ≤ k.val → M (finPred k) ≤ M k then M i else 0

/-- Prefix sums of a 32-entry vector (for the Monotonic rule's steps (4)-(6)). -/
def monoCumsumN {α : Type} [LinearOrderedField α] (V : Fin 32 → α) : ℕ → α
  | 0 => V 0
  | k + 1 => monoCumsumN V k + (if h : k + 1 < 32 then V ⟨k + 1, h⟩ else 0)

/-- Modelled from the spec: `get_keepbits_monotonic` applies the monotonic
filter and then the cumulative-threshold steps (4)-(6) of §4.3. -/
def get_keepbits_monotonic {α : Type} [LinearOrderedField α] (M : Fin 32 → α)
    (inflevel : α) : ℤ :=
  let Mf := monotonic_filter M
  let lastBit := monoCumsumN Mf 31
  let keepMantissaBits : ℤ :=
    if 0 < lastBit then
      match (List.finRange 32).find?
          (fun i => decide (monoCumsumN Mf i.val / lastBit > inflevel)) with
      | some i => (i.val : ℤ) + 1 - 9
      | none => 23
    else 23
  min (max keepMantissaBits 1) 23

/-- `analyze_and_get_nsb` : returns 1 immediately for fewer than two samples,
otherwise remaps the copied buffer with `signed_exponent`, estimates the
per-bit information and selects the keep-bits count. (The C `-1` branch for
`malloc` failure is not modelled; allocation cannot fail here.) -/
noncomputable def analyze_and_get_nsb (v : List ℕ) (infLevel : ℝ)
    (use_monotonic : Bool) : ℤ :=
  if v.length < 2 then 1
  else
    let v_copy := signed_exponent v
    let bitInfo := bitinformation v_copy
    if use_monotonic then get_keepbits_monotonic bitInfo infLevel
    else get_keepbits bitInfo infLevel

/-- The `main` processing of a non-coordinate float variable of rank ≤ 2 with
no missing values (src/netcdf_bit_rounding.c lines 420-429): analyse the whole
buffer, and if the resulting NSB lies in (0, 23], bit-round it in place; the
buffer is then written out either way. -/
noncomputable def process_small_float_var (data : List ℕ) (inflevel : ℝ)
    (missval : ℕ) (use_monotonic : Bool) : List ℕ :=
  let nsb := analyze_and_get_nsb data inflevel use_monotonic
  if 0 < nsb ∧ nsb ≤ 23 then bitround nsb.toNat data missval else data

/-- C10 (corrected claim): for a float32 variable with at most one element, the
analysis shortcut returns NSB = 1 without running the estimator, and the
variable IS then bit-rounded with NSB = 1 (it is not copied as-is). -/
theorem C10_singleton_amended (data : List ℕ) (inflevel : ℝ) (missval : ℕ)
    (um : Bool) (hlen : data.length ≤ 1) :
    process_small_float_var data inflevel missval um = bitround 1 data missval := by
  have h2 : data.length < 2 := by omega
  simp only [process_small_float_var, analyze_and_get_nsb, if_pos h2]
  rw [if_pos (⟨by norm_num, by norm_num⟩ : (0 : ℤ) < 1 ∧ (1 : ℤ) ≤ 23)]
  rfl

/-- C10 (counterexample to the claim as stated): the singleton float buffer
`[0x3F9E0652]` (1.234567f, with the default float fill value as missing value)
is NOT copied bit-for-bit: `analyze_and_get_nsb` returns 1 for fewer than two
samples, `main` accepts any NSB in (0, 23], and the element is rounded to
`0x3F800000` (1.0f). -/
theorem C10_counterexample :
    ([0x3F9E0652] : List ℕ).length ≤ 1 ∧
      process_small_float_var [0x3F9E0652] 0.99 0x7CF00000 false ≠ [0x3F9E0652] := by
  refine ⟨by decide, ?_⟩
  have h2 : ([0x3F9E0652] : List ℕ).length < 2 := by decide
  simp only [process_small_float_var, analyze_and_get_nsb, if_pos h2]
  rw [if_pos (⟨by norm_num, by norm_num⟩ : (0 : ℤ) < 1 ∧ (1 : ℤ) ≤ 23)]
  decide

/-- C10 (witness): the amended theorem applied to the singleton buffer
`[0x3F9E0652]`. -/
theorem C10_witness :
    ([0x3F9E0652] : List ℕ).length ≤ 1 ∧
      process_small_float_var [0x3F9E0652] 0.99 0x7CF00000 false =
        bitround 1 [0x3F9E0652] 0x7CF00000 :=
  ⟨by decide, C10_singleton_amended [0x3F9E0652] 0.99 0x7CF00000 false (by decide)⟩
